import Mathlib

/-!
A shallow embedding of the `poui` crate (`src/lib.rs`): a fixed-point
"point on the unit interval" type `Poui<N>` over machine integers, with
wrapping addition, widen-multiply-shorten multiplication, and a closed
widen/shorten table over the 8/16/32/64/128-bit backing widths.

Machine integers are modelled as `Nat` (unsigned backing) and `Int`
(signed backing), indexed by a bit-width `w`, with explicit reduction
modulo `2^w` exactly where the Rust code casts, truncates or wraps.
The `u`-prefixed definitions embed the unsigned impls, the `s`-prefixed
ones the signed impls.
-/

/-- Semantics of a Rust `as` cast to an unsigned `w`-bit integer:
keep the low `w` bits. -/
def ucast (w : Nat) (x : Nat) : Nat := x % 2 ^ w

/-- Semantics of a Rust `as` cast to a signed `w`-bit integer:
keep the low `w` bits and reinterpret them in two's complement. -/
def scast (w : Nat) (x : Int) : Int := (x + 2 ^ (w - 1)) % 2 ^ w - 2 ^ (w - 1)

/-- `x` is representable as a signed `w`-bit integer. -/
def SRange (w : Nat) (x : Int) : Prop := -(2 ^ (w - 1)) ≤ x ∧ x < 2 ^ (w - 1)

instance (w : Nat) (x : Int) : Decidable (SRange w x) :=
  inferInstanceAs (Decidable (-(2 ^ (w - 1)) ≤ x ∧ x < 2 ^ (w - 1)))

/-- Arithmetic right shift of a signed value by `n` bits (`>>` on a Rust
signed integer): floor division by `2^n`; `Int` division (`Int.ediv`)
coincides with floor division for the positive divisor `2^n`. -/
def ashr (x : Int) (n : Nat) : Int := x / 2 ^ n

/-- `wrapping_add` on an unsigned `w`-bit integer. -/
def uwrappingAdd (w : Nat) (a b : Nat) : Nat := ucast w (a + b)

/-- `wrapping_add` on a signed `w`-bit integer. -/
def swrappingAdd (w : Nat) (a b : Int) : Int := scast w (a + b)

/-- `pub struct Poui<N: Num + WrappingAdd>(pub N);` — a transparent
wrapper around the raw backing integer. -/
structure Poui (N : Type) where
  raw : N
  deriving DecidableEq

/-- `impl Add for Poui<N>` (`Poui(self.0.wrapping_add(&rhs.0))`) for an
unsigned backing integer of width `w`. -/
def uadd (w : Nat) (a b : Poui Nat) : Poui Nat := ⟨uwrappingAdd w a.raw b.raw⟩

/-- `impl Add for Poui<N>` (`Poui(self.0.wrapping_add(&rhs.0))`) for a
signed backing integer of width `w`. -/
def sadd (w : Nat) (a b : Poui Int) : Poui Int := ⟨swrappingAdd w a.raw b.raw⟩

/-- `impl Widen for u8/u16/u32/u64` at width `w`: `self as u{2w}`
(zero-extension into the double-width type). -/
def uwiden (w : Nat) (x : Nat) : Nat := ucast (2 * w) x

/-- `impl Widen for i8/i16/i32/i64` at width `w`: `self as i{2w}`
(sign-extension into the double-width type). -/
def swiden (w : Nat) (x : Int) : Int := scast (2 * w) x

/-- `impl Shorten for u16/u32/u64/u128` at half-width `w`:
`(self >> w) as u{w}`. -/
def ushorten (w : Nat) (x : Nat) : Nat := ucast w (x >>> w)

/-- `impl Shorten for i16/i32/i64/i128` at half-width `w`:
`(self >> w) as i{w}` (arithmetic shift, then truncating cast). -/
def sshorten (w : Nat) (x : Int) : Int := scast w (ashr x w)

/-- `impl Widen for u128`: `Widened = u128`, `fn widen(self) { self }`. -/
def u128widen (x : Nat) : Nat := x

/-- `impl Widen for i128`: `Widened = i128`, `fn widen(self) { self }`. -/
def i128widen (x : Int) : Int := x

/-- `impl Shorten for u8`: `Shortened = u8`, `fn shorten(self) { self }`. -/
def u8shorten (x : Nat) : Nat := x

/-- `impl Shorten for i8`: `Shortened = i8`, `fn shorten(self) { self }`. -/
def i8shorten (x : Int) : Int := x

/-- `impl Shorten for u128`: `Shortened = u64`, `(self >> 64) as u64`. -/
def u128shorten (x : Nat) : Nat := ucast 64 (x >>> 64)

/-- `impl Shorten for i128`: `Shortened = i64`, `(self >> 64) as i64`. -/
def i128shorten (x : Int) : Int := scast 64 (ashr x 64)

/-- The closed set of supported backing bit-widths (same table for the
signed and the unsigned family). -/
inductive Width where
  | w8
  | w16
  | w32
  | w64
  | w128
  deriving DecidableEq

/-- The `Widened` associated type of the `Widen` impls, as a total map
on the closed width table. -/
def Width.widened : Width → Width
  | .w8 => .w16
  | .w16 => .w32
  | .w32 => .w64
  | .w64 => .w128
  | .w128 => .w128

/-- The `Shortened` associated type of the `Shorten` impls, as a total
map on the closed width table. -/
def Width.shortened : Width → Width
  | .w8 => .w8
  | .w16 => .w8
  | .w32 => .w16
  | .w64 => .w32
  | .w128 => .w64

/-- `impl Mul for Poui<N>` (`Poui((self.0.widen() * rhs.0.widen()).shorten())`)
for an unsigned backing integer of width `w`. The double-width product is
taken exactly; `umulChecked` makes Rust's overflow check explicit. -/
def umul (w : Nat) (a b : Poui Nat) : Poui Nat :=
  ⟨ushorten w (uwiden w a.raw * uwiden w b.raw)⟩

/-- `impl Mul for Poui<N>` for a signed backing integer of width `w`. -/
def smul (w : Nat) (a b : Poui Int) : Poui Int :=
  ⟨sshorten w (swiden w a.raw * swiden w b.raw)⟩

/-- Multiplication with the overflow check of Rust's standard `*` on the
double-width unsigned type made explicit: `none` models an
arithmetic-overflow fault. -/
def umulChecked (w : Nat) (a b : Poui Nat) : Option (Poui Nat) :=
  if uwiden w a.raw * uwiden w b.raw < 2 ^ (2 * w) then some (umul w a b) else none

/-- Multiplication with the overflow check of Rust's standard `*` on the
double-width signed type made explicit: `none` models an
arithmetic-overflow fault. -/
def smulChecked (w : Nat) (a b : Poui Int) : Option (Poui Int) :=
  if SRange (2 * w) (swiden w a.raw * swiden w b.raw) then some (smul w a b) else none

/-! ### Helper lemmas -/

lemma ucast_eq_of_lt {w x : Nat} (h : x < 2 ^ w) : ucast w x = x :=
  Nat.mod_eq_of_lt h

lemma scast_eq_of_SRange {w : Nat} (hw : 0 < w) {x : Int} (h : SRange w x) :
    scast w x = x := by
  obtain ⟨v, rfl⟩ : ∃ v, w = v + 1 := ⟨w - 1, by omega⟩
  have h' : -(2 ^ v : Int) ≤ x ∧ x < 2 ^ v := h
  unfold scast
  simp only [Nat.add_sub_cancel]
  have h1 : (0 : Int) ≤ x + 2 ^ v := by linarith [h'.1]
  have h2 : x + 2 ^ v < 2 ^ (v + 1) := by
    rw [pow_succ]; linarith [h'.2]
  rw [Int.emod_eq_of_lt h1 h2]; ring

lemma scast_SRange {w : Nat} (hw : 0 < w) (x : Int) : SRange w (scast w x) := by
  obtain ⟨v, rfl⟩ : ∃ v, w = v + 1 := ⟨w - 1, by omega⟩
  show -(2 ^ (v + 1 - 1) : Int) ≤ scast (v + 1) x ∧ scast (v + 1) x < 2 ^ (v + 1 - 1)
  unfold scast
  simp only [Nat.add_sub_cancel]
  have hp : (0 : Int) < 2 ^ (v + 1) := by positivity
  have h0 := Int.emod_nonneg (x + 2 ^ v) (ne_of_gt hp)
  have h1 := Int.emod_lt_of_pos (x + 2 ^ v) hp
  have hps : (2 : Int) ^ (v + 1) = 2 ^ v * 2 := pow_succ 2 v
  constructor <;> linarith

lemma scast_emod (w : Nat) (x : Int) : scast w x % 2 ^ w = x % 2 ^ w := by
  unfold scast
  conv_rhs => rw [show x = x + 2 ^ (w - 1) - 2 ^ (w - 1) by ring]
  rw [Int.sub_emod, Int.sub_emod (x + 2 ^ (w - 1)), Int.emod_emod_of_dvd _ dvd_rfl]

lemma ushorten_eq_div {w x : Nat} (hx : x < 2 ^ (2 * w)) :
    ushorten w x = x / 2 ^ w := by
  unfold ushorten ucast
  rw [Nat.shiftRight_eq_div_pow]
  apply Nat.mod_eq_of_lt
  rw [two_mul, pow_add] at hx
  exact (Nat.div_lt_iff_lt_mul (Nat.pos_pow_of_pos w (by norm_num))).mpr
    (by rw [mul_comm] at hx; exact hx)

lemma SRange_div {w : Nat} (hw : 0 < w) {y : Int} (hy : SRange (2 * w) y) :
    SRange w (y / 2 ^ w) := by
  have hy' : -(2 ^ (2 * w - 1) : Int) ≤ y ∧ y < 2 ^ (2 * w - 1) := hy
  have hsplit : (2 : Int) ^ (2 * w - 1) = 2 ^ w * 2 ^ (w - 1) := by
    rw [← pow_add]
    congr 1
    omega
  have hpos : (0 : Int) < 2 ^ w := by positivity
  constructor
  · rw [Int.le_ediv_iff_mul_le hpos]
    calc -(2 ^ (w - 1) : Int) * 2 ^ w = -(2 ^ w * 2 ^ (w - 1)) := by ring
    _ = -(2 ^ (2 * w - 1)) := by rw [hsplit]
    _ ≤ y := hy'.1
  · rw [Int.ediv_lt_iff_lt_mul hpos]
    calc y < 2 ^ (2 * w - 1) := hy'.2
    _ = 2 ^ (w - 1) * 2 ^ w := by rw [hsplit]; ring

lemma sshorten_eq_div {w : Nat} (hw : 0 < w) {y : Int} (hy : SRange (2 * w) y) :
    sshorten w y = y / 2 ^ w := by
  unfold sshorten ashr
  exact scast_eq_of_SRange hw (SRange_div hw hy)

lemma umul_bound {w a b : Nat} (ha : a < 2 ^ w) (hb : b < 2 ^ w) :
    a * b < 2 ^ (2 * w) := by
  rw [two_mul, pow_add]
  exact Nat.mul_lt_mul'' ha hb

lemma smul_bound {w : Nat} (hw : 0 < w) {c d : Int} (hc : SRange w c)
    (hd : SRange w d) : SRange (2 * w) (c * d) := by
  have hc' : -(2 ^ (w - 1) : Int) ≤ c ∧ c < 2 ^ (w - 1) := hc
  have hd' : -(2 ^ (w - 1) : Int) ≤ d ∧ d < 2 ^ (w - 1) := hd
  have hac : |c| ≤ 2 ^ (w - 1) := abs_le.mpr ⟨hc'.1, le_of_lt hc'.2⟩
  have had : |d| ≤ 2 ^ (w - 1) := abs_le.mpr ⟨hd'.1, le_of_lt hd'.2⟩
  have habs : |c * d| ≤ 2 ^ (w - 1) * 2 ^ (w - 1) := by
    rw [abs_mul]
    exact mul_le_mul hac had (abs_nonneg d) (by positivity)
  have hpow : (2 : Int) ^ (w - 1) * 2 ^ (w - 1) < 2 ^ (2 * w - 1) := by
    rw [← pow_add]
    exact pow_lt_pow_right₀ one_lt_two (by omega)
  have := abs_lt.mp (lt_of_le_of_lt habs hpow)
  exact ⟨le_of_lt this.1, this.2⟩

lemma scast_zero {w : Nat} (hw : 0 < w) : scast w 0 = 0 :=
  scast_eq_of_SRange hw ⟨neg_nonpos.mpr (by positivity), by positivity⟩

lemma umul_raw_eq {w : Nat} (a b : Poui Nat) (ha : a.raw < 2 ^ w)
    (hb : b.raw < 2 ^ w) : (umul w a b).raw = a.raw * b.raw / 2 ^ w := by
  have hw2 : a.raw < 2 ^ (2 * w) :=
    lt_of_lt_of_le ha (Nat.pow_le_pow_right (by norm_num) (by omega))
  have hw2' : b.raw < 2 ^ (2 * w) :=
    lt_of_lt_of_le hb (Nat.pow_le_pow_right (by norm_num) (by omega))
  show ushorten w (uwiden w a.raw * uwiden w b.raw) = a.raw * b.raw / 2 ^ w
  rw [uwiden, uwiden, ucast_eq_of_lt hw2, ucast_eq_of_lt hw2',
    ushorten_eq_div (umul_bound ha hb)]

lemma SRange_mono {w w' : Nat} (h : w ≤ w') {x : Int} (hx : SRange w x) :
    SRange w' x := by
  have hx' : -(2 ^ (w - 1) : Int) ≤ x ∧ x < 2 ^ (w - 1) := hx
  have hle : (2 : Int) ^ (w - 1) ≤ 2 ^ (w' - 1) :=
    pow_le_pow_right₀ one_le_two (by omega)
  exact ⟨le_trans (neg_le_neg hle) hx'.1, lt_of_lt_of_le hx'.2 hle⟩

/-! ### Claims -/

/-- C1: for unsigned backing of width `w`, `mul(a, b)` returns the value
whose raw is the top `w` bits of the `2w`-bit product of the widened
operands, i.e. `mul(a,b).raw = (a.raw * b.raw) / 2^w` (floor division,
truncating, never rounding), computed by widening, multiplying in the
double-width type and shortening. -/
theorem mul_floor_div (w : Nat) (a b : Poui Nat) (ha : a.raw < 2 ^ w)
    (hb : b.raw < 2 ^ w) : (umul w a b).raw = a.raw * b.raw / 2 ^ w :=
  umul_raw_eq a b ha hb

/-- C1 witness: unsigned 8-bit, `128 * 128 = 64` (one half times one half
is one quarter). -/
theorem mul_floor_div_witness :
    (128 : Nat) < 2 ^ 8 ∧ (umul 8 ⟨128⟩ ⟨128⟩).raw = 128 * 128 / 2 ^ 8 :=
  ⟨by decide, mul_floor_div 8 ⟨128⟩ ⟨128⟩ (by decide) (by decide)⟩

/-- C2: for both signednesses, `add(a,b).raw = (a.raw + b.raw) mod 2^w` —
two's-complement wraparound addition, never clamped, never a fault; the
signed result is again a representable signed `w`-bit value, and for
signed 8-bit backing `add(127, 1).raw = -128`. -/
theorem add_wraparound (w : Nat) (hw : 0 < w) (a b : Poui Nat) (c d : Poui Int) :
    (uadd w a b).raw = (a.raw + b.raw) % 2 ^ w ∧
    (sadd w c d).raw % 2 ^ w = (c.raw + d.raw) % 2 ^ w ∧
    SRange w (sadd w c d).raw ∧
    sadd 8 ⟨127⟩ ⟨1⟩ = ⟨-128⟩ :=
  ⟨rfl, scast_emod w (c.raw + d.raw), scast_SRange hw (c.raw + d.raw), by decide⟩

/-- C2 witness at width 8. -/
theorem add_wraparound_witness :
    0 < 8 ∧
    ((uadd 8 ⟨200⟩ ⟨100⟩).raw = (200 + 100) % 2 ^ 8 ∧
      (sadd 8 ⟨100⟩ ⟨50⟩).raw % 2 ^ 8 = (100 + 50) % 2 ^ 8 ∧
      SRange 8 (sadd 8 ⟨100⟩ ⟨50⟩).raw ∧
      sadd 8 ⟨127⟩ ⟨1⟩ = ⟨-128⟩) :=
  ⟨by decide, add_wraparound 8 (by decide) ⟨200⟩ ⟨100⟩ ⟨100⟩ ⟨50⟩⟩

/-- C3 counterexample: the `Shorten` impl for the 128-bit width does not
map a value to itself — `u128::shorten` takes the top 64 bits, so it
sends `1` to `0`. -/
theorem u128shorten_not_self : u128shorten 1 ≠ 1 := by decide

/-- C3 (amended): for the 128-bit backing widths (unsigned and signed),
`Widen` maps a value to itself; the degenerate identity `Shorten` is at
the 8-bit bottom end (`u8`/`i8` map to themselves), while `Shorten` at
128 bits maps to the 64-bit width by taking the top 64 bits; the closed
width-pair table totally covers 8/16/32/64/128-bit widths for both
signednesses. -/
theorem width_table_boundary (x : Nat) (y : Int) (hx : x < 2 ^ 128)
    (hy : SRange 128 y) :
    u128widen x = x ∧ i128widen y = y ∧ u8shorten x = x ∧ i8shorten y = y ∧
    u128shorten x = x / 2 ^ 64 ∧ i128shorten y = y / 2 ^ 64 ∧
    Width.widened Width.w128 = Width.w128 ∧
    Width.shortened Width.w8 = Width.w8 ∧
    Width.shortened Width.w128 = Width.w64 :=
  ⟨rfl, rfl, rfl, rfl, @ushorten_eq_div 64 x hx,
    @sshorten_eq_div 64 (by norm_num) y hy, rfl, rfl, rfl⟩

/-- C3 witness at `2^70` and `-(2^70)`. -/
theorem width_table_boundary_witness :
    (2 ^ 70 : Nat) < 2 ^ 128 ∧ SRange 128 (-(2 ^ 70)) ∧
    (u128widen (2 ^ 70) = 2 ^ 70 ∧ i128widen (-(2 ^ 70)) = -(2 ^ 70) ∧
      u8shorten (2 ^ 70) = 2 ^ 70 ∧ i8shorten (-(2 ^ 70)) = -(2 ^ 70) ∧
      u128shorten (2 ^ 70) = 2 ^ 70 / 2 ^ 64 ∧
      i128shorten (-(2 ^ 70)) = -(2 ^ 70) / 2 ^ 64 ∧
      Width.widened Width.w128 = Width.w128 ∧
      Width.shortened Width.w8 = Width.w8 ∧
      Width.shortened Width.w128 = Width.w64) :=
  ⟨by decide, by decide,
    width_table_boundary (2 ^ 70) (-(2 ^ 70)) (by decide) (by decide)⟩

/-- C4: the standard (non-wrapping) multiplication of the two widened
values never overflows the double-width type — the product of two
`w`-bit values fits in `2w` bits for both signednesses — so the checked
multiplication (which models Rust's overflow fault as `none`) always
succeeds and agrees with the total multiplication. -/
theorem mul_no_overflow (w : Nat) (hw : 0 < w) (a b : Poui Nat) (c d : Poui Int)
    (ha : a.raw < 2 ^ w) (hb : b.raw < 2 ^ w)
    (hc : SRange w c.raw) (hd : SRange w d.raw) :
    uwiden w a.raw * uwiden w b.raw < 2 ^ (2 * w) ∧
    SRange (2 * w) (swiden w c.raw * swiden w d.raw) ∧
    umulChecked w a b = some (umul w a b) ∧
    smulChecked w c d = some (smul w c d) := by
  have ha2 : a.raw < 2 ^ (2 * w) :=
    lt_of_lt_of_le ha (Nat.pow_le_pow_right (by norm_num) (by omega))
  have hb2 : b.raw < 2 ^ (2 * w) :=
    lt_of_lt_of_le hb (Nat.pow_le_pow_right (by norm_num) (by omega))
  have hub : uwiden w a.raw * uwiden w b.raw < 2 ^ (2 * w) := by
    rw [uwiden, uwiden, ucast_eq_of_lt ha2, ucast_eq_of_lt hb2]
    exact umul_bound ha hb
  have hcs : swiden w c.raw = c.raw :=
    scast_eq_of_SRange (by omega) (SRange_mono (by omega) hc)
  have hds : swiden w d.raw = d.raw :=
    scast_eq_of_SRange (by omega) (SRange_mono (by omega) hd)
  have hsb : SRange (2 * w) (swiden w c.raw * swiden w d.raw) := by
    rw [hcs, hds]
    exact smul_bound hw hc hd
  refine ⟨hub, hsb, ?_, ?_⟩
  · unfold umulChecked
    rw [if_pos hub]
  · unfold smulChecked
    rw [if_pos hsb]

/-- C4 witness at width 8. -/
theorem mul_no_overflow_witness :
    0 < 8 ∧ (200 : Nat) < 2 ^ 8 ∧ SRange 8 (-100) ∧
    (uwiden 8 200 * uwiden 8 200 < 2 ^ (2 * 8) ∧
      SRange (2 * 8) (swiden 8 (-100) * swiden 8 (-100)) ∧
      umulChecked 8 ⟨200⟩ ⟨200⟩ = some (umul 8 ⟨200⟩ ⟨200⟩) ∧
      smulChecked 8 ⟨-100⟩ ⟨-100⟩ = some (smul 8 ⟨-100⟩ ⟨-100⟩)) :=
  ⟨by decide, by decide, by decide,
    mul_no_overflow 8 (by decide) ⟨200⟩ ⟨200⟩ ⟨-100⟩ ⟨-100⟩ (by decide)
      (by decide) (by decide) (by decide)⟩

/-- C5: for every width pair `2w → w`, `Shorten(x)` returns the top `w`
bits of `x`: a logical (unsigned) or arithmetic (signed) right shift by
`w` bits — floor division by `2^w` — followed by a truncating cast that
loses nothing, the result being a representable `w`-bit value. -/
theorem shorten_top_bits (w : Nat) (hw : 0 < w) (x : Nat) (y : Int)
    (hx : x < 2 ^ (2 * w)) (hy : SRange (2 * w) y) :
    ushorten w x = x / 2 ^ w ∧ ushorten w x < 2 ^ w ∧
    sshorten w y = y / 2 ^ w ∧ SRange w (sshorten w y) := by
  refine ⟨ushorten_eq_div hx, Nat.mod_lt _ (by positivity),
    sshorten_eq_div hw hy, ?_⟩
  rw [sshorten_eq_div hw hy]
  exact SRange_div hw hy

/-- C5 witness at the 16-to-8-bit pair. -/
theorem shorten_top_bits_witness :
    0 < 8 ∧ (43981 : Nat) < 2 ^ (2 * 8) ∧ SRange (2 * 8) (-4660) ∧
    (ushorten 8 43981 = 43981 / 2 ^ 8 ∧ ushorten 8 43981 < 2 ^ 8 ∧
      sshorten 8 (-4660) = -4660 / 2 ^ 8 ∧ SRange 8 (sshorten 8 (-4660))) :=
  ⟨by decide, by decide, by decide,
    shorten_top_bits 8 (by decide) 43981 (-4660) (by decide) (by decide)⟩

/-- C6: for every width pair `w → 2w`, `Widen(x)` preserves the numeric
value of `x` exactly (zero-extension for unsigned, sign-extension for
signed): the widened value equals `x` as a mathematical integer. -/
theorem widen_preserves_value (w : Nat) (hw : 0 < w) (x : Nat) (y : Int)
    (hx : x < 2 ^ w) (hy : SRange w y) :
    uwiden w x = x ∧ swiden w y = y :=
  ⟨ucast_eq_of_lt (lt_of_lt_of_le hx (Nat.pow_le_pow_right (by norm_num) (by omega))),
    scast_eq_of_SRange (by omega) (SRange_mono (by omega) hy)⟩

/-- C6 witness at the 8-to-16-bit pair. -/
theorem widen_preserves_value_witness :
    0 < 8 ∧ (200 : Nat) < 2 ^ 8 ∧ SRange 8 (-100) ∧
    (uwiden 8 200 = 200 ∧ swiden 8 (-100) = -100) :=
  ⟨by decide, by decide, by decide,
    widen_preserves_value 8 (by decide) 200 (-100) (by decide) (by decide)⟩

/-- C8: addition has `zero` as identity and is commutative, for both
signednesses and every width. -/
theorem add_identity_comm (w : Nat) (hw : 0 < w) (a b : Poui Nat) (c d : Poui Int)
    (ha : a.raw < 2 ^ w) (hc : SRange w c.raw) :
    uadd w a ⟨0⟩ = a ∧ sadd w c ⟨0⟩ = c ∧
    uadd w a b = uadd w b a ∧ sadd w c d = sadd w d c := by
  obtain ⟨araw⟩ := a
  obtain ⟨craw⟩ := c
  have h1 : uwrappingAdd w araw 0 = araw := by
    rw [uwrappingAdd, Nat.add_zero]
    exact ucast_eq_of_lt ha
  have h2 : swrappingAdd w craw 0 = craw := by
    rw [swrappingAdd, add_zero]
    exact scast_eq_of_SRange hw hc
  refine ⟨congrArg Poui.mk h1, congrArg Poui.mk h2,
    congrArg Poui.mk ?_, congrArg Poui.mk ?_⟩
  · rw [uwrappingAdd, uwrappingAdd, Nat.add_comm]
  · rw [swrappingAdd, swrappingAdd, add_comm]

/-- C8 witness at width 8. -/
theorem add_identity_comm_witness :
    0 < 8 ∧ (200 : Nat) < 2 ^ 8 ∧ SRange 8 (-100) ∧
    (uadd 8 ⟨200⟩ ⟨0⟩ = ⟨200⟩ ∧ sadd 8 ⟨-100⟩ ⟨0⟩ = ⟨-100⟩ ∧
      uadd 8 ⟨200⟩ ⟨100⟩ = uadd 8 ⟨100⟩ ⟨200⟩ ∧
      sadd 8 ⟨-100⟩ ⟨64⟩ = sadd 8 ⟨64⟩ ⟨-100⟩) :=
  ⟨by decide, by decide, by decide,
    add_identity_comm 8 (by decide) ⟨200⟩ ⟨100⟩ ⟨-100⟩ ⟨64⟩ (by decide) (by decide)⟩

/-- C9: zero is absorbing for multiplication for both signednesses, and
for the unsigned widths the product of the smallest positive value with
itself truncates to zero (`1 × 1 → 0`). -/
theorem mul_absorbing_zero (w : Nat) (hw : 0 < w) (a : Poui Nat) (c : Poui Int) :
    umul w a ⟨0⟩ = ⟨0⟩ ∧ smul w c ⟨0⟩ = ⟨0⟩ ∧ umul w ⟨1⟩ ⟨1⟩ = ⟨0⟩ := by
  have hz : uwiden w 0 = 0 := Nat.zero_mod _
  have hzs : swiden w 0 = 0 := scast_zero (by omega)
  have hus : ushorten w 0 = 0 := by
    rw [ushorten, Nat.zero_shiftRight]
    exact Nat.zero_mod _
  have hss : sshorten w 0 = 0 := by
    rw [sshorten, ashr, Int.zero_ediv]
    exact scast_zero hw
  refine ⟨congrArg Poui.mk ?_, congrArg Poui.mk ?_, congrArg Poui.mk ?_⟩
  · show ushorten w (uwiden w a.raw * uwiden w 0) = 0
    rw [hz, mul_zero, hus]
  · show sshorten w (swiden w c.raw * swiden w 0) = 0
    rw [hzs, mul_zero, hss]
  · show ushorten w (uwiden w 1 * uwiden w 1) = 0
    have h1 : uwiden w 1 = 1 :=
      Nat.mod_eq_of_lt (Nat.one_lt_two_pow_iff.mpr (by omega))
    rw [h1, mul_one, ushorten, ucast, Nat.shiftRight_eq_div_pow,
      Nat.div_eq_of_lt (Nat.one_lt_two_pow_iff.mpr (by omega)), Nat.zero_mod]

/-- C9 witness at width 8. -/
theorem mul_absorbing_zero_witness :
    0 < 8 ∧
    (umul 8 ⟨77⟩ ⟨0⟩ = ⟨0⟩ ∧ smul 8 ⟨-5⟩ ⟨0⟩ = ⟨0⟩ ∧ umul 8 ⟨1⟩ ⟨1⟩ = ⟨0⟩) :=
  ⟨by decide, mul_absorbing_zero 8 (by decide) ⟨77⟩ ⟨-5⟩⟩

/-- C10: for unsigned backing, truncating multiplication never increases
either operand: `mul(a,b).raw ≤ min a.raw b.raw`, so the result stays in
the unit interval. -/
theorem mul_le_min (w : Nat) (a b : Poui Nat) (ha : a.raw < 2 ^ w)
    (hb : b.raw < 2 ^ w) : (umul w a b).raw ≤ min a.raw b.raw := by
  rw [umul_raw_eq a b ha hb]
  have hp : 0 < 2 ^ w := by positivity
  refine le_min ?_ ?_
  · have h : a.raw * b.raw ≤ a.raw * 2 ^ w := Nat.mul_le_mul_left _ (le_of_lt hb)
    calc a.raw * b.raw / 2 ^ w ≤ a.raw * 2 ^ w / 2 ^ w := Nat.div_le_div_right h
    _ = a.raw := Nat.mul_div_cancel _ hp
  · have h : a.raw * b.raw ≤ b.raw * 2 ^ w := by
      rw [mul_comm]
      exact Nat.mul_le_mul_left _ (le_of_lt ha)
    calc a.raw * b.raw / 2 ^ w ≤ b.raw * 2 ^ w / 2 ^ w := Nat.div_le_div_right h
    _ = b.raw := Nat.mul_div_cancel _ hp

/-- C10 witness at width 8. -/
theorem mul_le_min_witness :
    (100 : Nat) < 2 ^ 8 ∧ (200 : Nat) < 2 ^ 8 ∧
    (umul 8 ⟨100⟩ ⟨200⟩).raw ≤ min (Poui.mk 100).raw (Poui.mk 200).raw :=
  ⟨by decide, by decide, mul_le_min 8 ⟨100⟩ ⟨200⟩ (by decide) (by decide)⟩
